import Mathlib

/-!
# free-us-map: point lifecycle, moderation threshold and address normalisation

A shallow embedding of the Go sources

* `main.go` (the four point handlers and `toClickableLink`),
* `src/geo/geo.go` (`NewPointFromCoords`),
* `src/geo/psql_point.go` (`PsqlPoint.Scan`),
* `src/verify/verify.go` (`normalizeGmailLocalPart`, `partsFromEmailAddress`).

Modelling conventions.

* The database is a pair of tables (lists of rows).  Each SQL statement of the
  sources is one function on that state, following the statement text.
  Failing statements are modelled where the result of a handler depends on
  them: the insert of `handlePostPoint` takes its outcome as an input, and the
  insert of `handlePointVote` fails on the uniqueness constraint of the votes
  table.  The other statements are taken as executed.
* A handler receives the result of decoding its request body: decoding is done
  by `ioutil.ReadAll` and `json.Unmarshal`, which are library code.
* `float64` values decoded from JSON are finite, hence rational numbers, and
  comparisons on them agree with comparisons in `Rat`.
* Timestamps are microseconds (the resolution of a Postgres timestamp).
* Library functions whose tables or grammars are not part of the repository
  (`url.Parse`, `time.Format`, `strconv.ParseFloat`, the Postgres output
  function of `point`, the non-ASCII part of `unicode.ToLower`) are parameters.
-/

namespace FreeUsMap

/-! ## Go library pieces that are modelled directly -/

/-- Go `unicode.IsSpace`: the Latin-1 spaces and the code points with the
White_Space property. -/
def isSpace (c : Char) : Bool :=
  let n := c.toNat
  n = 0x09 || n = 0x0A || n = 0x0B || n = 0x0C || n = 0x0D || n = 0x20 ||
  n = 0x85 || n = 0xA0 || n = 0x1680 || (0x2000 ≤ n && n ≤ 0x200A) ||
  n = 0x2028 || n = 0x2029 || n = 0x202F || n = 0x205F || n = 0x3000

/-- Go `strings.TrimSpace` on a sequence of runes: leading and trailing white
space removed. -/
def trimSpaceL (s : List Char) : List Char :=
  ((s.dropWhile isSpace).reverse.dropWhile isSpace).reverse

/-- Go `strings.TrimSpace` on a string. -/
def trimSpace (s : String) : String := String.mk (trimSpaceL s.toList)

/-- Go slice expression `b[lo:hi]`; `none` is the run-time panic for bounds out
of range.  (The upper bound is checked against the length; no caller here
reaches past it.) -/
def goSlice {α : Type} (b : List α) (lo hi : Int) : Option (List α) :=
  if 0 ≤ lo ∧ lo ≤ hi ∧ hi ≤ (b.length : Int) then
    some ((b.drop lo.toNat).take (hi - lo).toNat)
  else none

/-- Go `bytes.IndexByte`: index of the first occurrence, `-1` when absent. -/
def indexByte (b : List Char) (c : Char) : Int :=
  if c ∈ b then (b.indexOf c : Int) else -1

/-! ## Request decoding -/

/-- What `ioutil.ReadAll` followed by `json.Unmarshal(body, &ptr)` leaves the
handler with: an error, a nil pointer (the body is the JSON value `null`), or
a filled struct. -/
inductive Decoded (α : Type) where
  | failed : Decoded α
  | null : Decoded α
  | value (v : α) : Decoded α

/-- Struct `coord` of main.go. -/
structure coord where
  Latitude : Rat
  Longitude : Rat
deriving DecidableEq

/-- Method `X` of `coord`. -/
def coord.X (c : coord) : Rat := c.Longitude

/-- Method `Y` of `coord`. -/
def coord.Y (c : coord) : Rat := c.Latitude

/-- Struct `bounds` of main.go. -/
structure bounds where
  RequestedBy : String
  Ne : coord
  Sw : coord
deriving DecidableEq

/-- Struct `newPoint` of main.go. -/
structure newPoint where
  Coords : coord
  CreatedBy : String
  Message : String
  Icon : String
deriving DecidableEq

/-- Struct `deleteOpts` of main.go. -/
structure deleteOpts where
  Id : Int
  CreatedBy : String
deriving DecidableEq

/-- Struct `voteOpts` of main.go. -/
structure voteOpts where
  PointId : Int
  Voter : String
deriving DecidableEq

/-! ## The store -/

/-- A row of table `points`. -/
structure PointRow where
  id : Int
  coordinates : Rat × Rat
  body : String
  icon : String
  created_at : Int
  created_by : String
  hidden : Bool
deriving DecidableEq

/-- A row of table `votes`. -/
structure VoteRow where
  voter_id : String
  point_id : Int
  value : Int
deriving DecidableEq

/-- The database: both tables. -/
structure DB where
  points : List PointRow
  votes : List VoteRow
deriving DecidableEq

/-- Modelled from the spec: the default of column `hidden` (the table
definitions are not part of the sources; the insert statement of
`handlePostPoint` does not mention the column).  The spec has `create` insert
the point with hidden=false. -/
def hiddenDefault : Bool := false

/-- Statement of `handlePostPoint`:
`insert into points (coordinates, body, icon, created_at, created_by)
 values (point($1, $2), $3, $4, now(), $5) returning id`.
The id generated by the store and the store clock are inputs. -/
def insertPoint (db : DB) (newId now : Int) (x y : Rat) (body icon createdBy : String) : DB :=
  { db with points := db.points ++
      [{ id := newId, coordinates := (x, y), body := body, icon := icon,
         created_at := now, created_by := createdBy, hidden := hiddenDefault }] }

/-- Twelve hours in microseconds. -/
def twelveHours : Int := 12 * 60 * 60 * 1000000

/-- Postgres `box(point(x1, y1), point(x2, y2)) @> p`: the box constructor
orders the corners, containment is inclusive. -/
def boxContains (x1 y1 x2 y2 : Rat) (p : Rat × Rat) : Bool :=
  decide (min x1 x2 ≤ p.1) && decide (p.1 ≤ max x1 x2) &&
  decide (min y1 y2 ≤ p.2) && decide (p.2 ≤ max y1 y2)

/-- The where clause of the query of `handleGetPoints`. -/
def listable (now : Int) (x1 y1 x2 y2 : Rat) (r : PointRow) : Bool :=
  decide (r.created_at > now - twelveHours) && boxContains x1 y1 x2 y2 r.coordinates &&
  (r.hidden == false)

/-- Query of `handleGetPoints`: the selected rows, each with the value of
`case created_by when $5 then true else false end`, at most 500 of them.
The rows come in table order (the query has no `order by`, so Postgres
promises none). -/
def queryPoints (db : DB) (now : Int) (x1 y1 x2 y2 : Rat) (requestedBy : String) :
    List (PointRow × Bool) :=
  ((db.points.filter (listable now x1 y1 x2 y2)).take 500).map
    (fun r => (r, decide (r.created_by = requestedBy)))

/-- Statement of `handleDeletePoint`:
`update points set hidden = true where id = $1 and created_by = $2`. -/
def hideOwned (db : DB) (id : Int) (createdBy : String) : DB :=
  { db with
    points := db.points.map
      (fun r => if r.id = id ∧ r.created_by = createdBy then { r with hidden := true } else r) }

/-- Statement of `maybeHidePoint`: `update points set hidden = true where id = $1`. -/
def hidePoint (db : DB) (id : Int) : DB :=
  { db with
    points := db.points.map (fun r => if r.id = id then { r with hidden := true } else r) }

/-- Modelled from the spec: the constraint `unique(voter_id, point_id)` of
table `votes` (the table definitions are not part of the sources).  True when
a row with this pair is already stored. -/
def hasVoted (db : DB) (voter : String) (pointId : Int) : Bool :=
  db.votes.any (fun v => decide (v.voter_id = voter) && decide (v.point_id = pointId))

/-- Statement of `handlePointVote`:
`insert into votes (voter_id, point_id, value) values ($1, $2, $3)`;
`none` is the duplicate key error. -/
def insertVote (db : DB) (voter : String) (pointId val : Int) : Option DB :=
  if hasVoted db voter pointId then none
  else some { db with votes := db.votes ++ [{ voter_id := voter, point_id := pointId, value := val }] }

/-- The vote values stored for a point. -/
def votesFor (db : DB) (id : Int) : List Int :=
  (db.votes.filter (fun v => decide (v.point_id = id))).map VoteRow.value

/-- Score of a point: the sum of its vote values (0 when it has none).  The
Go variable is an `int` of 64 bits; a sum of vote values cannot leave that
range in practice, so `Int` stands for it. -/
def scoreOf (db : DB) (id : Int) : Int := (votesFor db id).sum

/-- Query of `maybeHidePoint`: `select sum(value) from votes where point_id = $1`
scanned into an `int`.  Over no rows the sum is NULL, which does not scan into
an `int`: `none` is that error. -/
def sumVotes (db : DB) (id : Int) : Option Int :=
  if votesFor db id = [] then none else some (scoreOf db id)

/-! ## Package geo -/

/-- Struct `geometry` of geo.go. -/
structure geometry where
  Typ : String
  Coordinates : Rat × Rat
deriving DecidableEq

/-- Struct `Element` of geo.go; the `Properties` map is a list of key and
value pairs. -/
structure Element where
  CanDelete : Bool
  Typ : String
  Properties : List (String × String)
  Geometry : geometry
deriving DecidableEq

/-- Function `NewPointFromCoords` of geo.go.  `fmtTime` is
`tm.Format("2006-01-02T15:04:05-07:00")`. -/
def NewPointFromCoords (fmtTime : Int → String) (c : Rat × Rat) (id msg : String) (tm : Int)
    (icon : String) (canDelete : Bool) : Element :=
  { Typ := "Feature"
    CanDelete := canDelete
    Properties := [("point_id", id), ("icon", icon), ("message", msg),
                   ("created_at", fmtTime tm)]
    Geometry := { Typ := "Point", Coordinates := c } }

/-- Value of a key of a `Properties` map. -/
def Element.prop (e : Element) (key : String) : Option String :=
  (e.Properties.find? (fun kv => kv.1 == key)).map Prod.snd

/-- Struct `PsqlPoint` of psql_point.go, over a type `F` of float values. -/
structure PsqlPoint (F : Type) where
  Point : F × F
  Valid : Bool

/-- The argument of `Scan`: nil, a byte slice, or a value of another type.
The bytes of the Postgres text form are ASCII and written as characters. -/
inductive DriverValue where
  | null : DriverValue
  | bytes (b : List Char) : DriverValue
  | other : DriverValue

/-- The two texts `PsqlPoint.Scan` hands to `strconv.ParseFloat`:
`a := b[1 : idx-1]` and `b := b[idx+1 : len(b)-1]` with
`idx := bytes.IndexByte(b, byte(','))`; `none` when a slice expression
panics. -/
def scanTexts (b : List Char) : Option (List Char × List Char) :=
  let idx := indexByte b ','
  match goSlice b 1 (idx - 1) with
  | none => none
  | some a =>
    match goSlice b (idx + 1) ((b.length : Int) - 1) with
    | none => none
    | some b2 => some (a, b2)

/-- Method `Scan` of `PsqlPoint`.  The result is `none` when the method
panics, else the receiver after the call and the returned error (`none` for
nil).  `parseFloat` is the value returned by `strconv.ParseFloat(_, 64)`; its
error is dropped by the method. -/
def PsqlPoint.Scan {F : Type} [Zero F] (parseFloat : List Char → F) (pt : PsqlPoint F)
    (value : DriverValue) : Option (PsqlPoint F × Option String) :=
  match value with
  | .null => some ({ Point := (0, 0), Valid := false }, none)
  | .bytes b =>
    match scanTexts b with
    | none => none
    | some (a, b2) => some ({ Point := (parseFloat a, parseFloat b2), Valid := false }, none)
  | .other => some (pt, some "Expect postgresql point to be a slice of bytes")

/-! ## Handlers of main.go -/

/-- Library functions the handlers call and whose definitions are outside the
repository. -/
structure Lib where
  /-- Field `Host` of `url.Parse(s)`; `none` when `url.Parse` returns an error. -/
  urlHost : String → Option String
  /-- Method `Format` of `time.Time` with layout `2006-01-02T15:04:05-07:00`. -/
  fmtTime : Int → String
  /-- Postgres text output of a `point` value. -/
  pointOut : Rat × Rat → List Char
  /-- Value returned by `strconv.ParseFloat(_, 64)`. -/
  parseFloat : List Char → Rat

/-- What the client gets: `aborted` when the handler panics (the server drops
the connection), `empty` when the handler returns without writing (status 200,
no body), `json els` when it writes the marshalled list of elements. -/
inductive Response where
  | aborted : Response
  | empty : Response
  | json (els : List Element) : Response
deriving DecidableEq

/-- Function `toClickableLink` of main.go. -/
def toClickableLink (L : Lib) (msg : String) : String :=
  let s := trimSpace msg
  match L.urlHost s with
  | none => msg
  | some host =>
    if host = "twitter.com" ∨ host = "mobile.twitter.com" then
      "<a href=\"" ++ s ++ "\" target=\"_blank\">" ++ msg ++ "</a>"
    else msg

/-- The row loop of `handleGetPoints`: scan each row, rewrite its message with
`toClickableLink`, append the element.  `Except.error` carries the response
of an early exit. -/
def scanRows (L : Lib) : List (PointRow × Bool) → Except Response (List Element)
  | [] => .ok []
  | (r, canDelete) :: rest =>
    match PsqlPoint.Scan L.parseFloat { Point := (0, 0), Valid := false }
        (.bytes (L.pointOut r.coordinates)) with
    | none => .error .aborted
    | some (_, some _) => .error .empty
    | some (pt, none) =>
      match scanRows L rest with
      | .error e => .error e
      | .ok els =>
        .ok (NewPointFromCoords L.fmtTime pt.Point (toString r.id) (toClickableLink L r.body)
              r.created_at r.icon canDelete :: els)

/-- Handler `handleGetPoints`; `now` is the clock of the store. -/
def handleGetPoints (L : Lib) (db : DB) (now : Int) (req : Decoded bounds) : Response :=
  match req with
  | .failed => .empty
  | .null => .aborted
  | .value bnd =>
    match scanRows L
        (queryPoints db now bnd.Ne.X bnd.Ne.Y bnd.Sw.X bnd.Sw.Y bnd.RequestedBy) with
    | .error e => e
    | .ok els => .json els

/-- Handler `handlePostPoint`: the store after the call and the response.
`ins` is the outcome of the insert statement: `none` when
`db.QueryRow(...).Scan(&id)` returns an error (nothing is stored, the handler
logs and returns), `some newId` when the row is stored under the id `newId`
the store generates.  `dbNow` is the clock of the store and `goNow` the value
of `time.Now()`. -/
def handlePostPoint (L : Lib) (db : DB) (ins : Option Int) (dbNow goNow : Int)
    (req : Decoded newPoint) : DB × Response :=
  match req with
  | .failed => (db, .empty)
  | .null => (db, .aborted)
  | .value pt =>
    match ins with
    | none => (db, .empty)
    | some newId =>
      let db2 := insertPoint db newId dbNow pt.Coords.X pt.Coords.Y pt.Message pt.Icon pt.CreatedBy
      let xy : Rat × Rat := (pt.Coords.X, pt.Coords.Y)
      (db2, .json [NewPointFromCoords L.fmtTime xy (toString newId) pt.Message goNow pt.Icon true])

/-- Handler `handleDeletePoint`: the store after the call and the response. -/
def handleDeletePoint (db : DB) (req : Decoded deleteOpts) : DB × Response :=
  match req with
  | .failed => (db, .empty)
  | .null => (db, .aborted)
  | .value opts => (hideOwned db opts.Id opts.CreatedBy, .empty)

/-- Result of `handlePointVote`: the store, the response and the argument of
the goroutine `go maybeHidePoint(db, opts.PointId)` when one is started. -/
structure VoteResult where
  db : DB
  response : Response
  spawned : Option Int
deriving DecidableEq

/-- Handler `handlePointVote` for the value `val` it was registered with. -/
def handlePointVote (db : DB) (val : Int) (req : Decoded voteOpts) : VoteResult :=
  match req with
  | .failed => { db := db, response := .empty, spawned := none }
  | .null => { db := db, response := .aborted, spawned := none }
  | .value opts =>
    match insertVote db opts.Voter opts.PointId val with
    | none => { db := db, response := .empty, spawned := none }
    | some db2 => { db := db2, response := .empty, spawned := some opts.PointId }

/-- Function `maybeHidePoint` of main.go. -/
def maybeHidePoint (db : DB) (id : Int) : DB :=
  match sumVotes db id with
  | none => db
  | some score => if score ≤ -5 then hidePoint db id else db

/-- A vote request with its hide check run to completion right after the
handler returns. -/
def voteAndCheck (db : DB) (val : Int) (req : Decoded voteOpts) : DB :=
  let r := handlePointVote db val req
  match r.spawned with
  | none => r.db
  | some id => maybeHidePoint r.db id

/-- One operation on the store. -/
inductive Op where
  | submit (ins : Option Int) (dbNow goNow : Int) (req : Decoded newPoint) : Op
  | delete (req : Decoded deleteOpts) : Op
  | vote (val : Int) (req : Decoded voteOpts) : Op
  | hideCheck (id : Int) : Op

/-- The store after one operation. -/
def step (L : Lib) (db : DB) : Op → DB
  | .submit ins dbNow goNow req => (handlePostPoint L db ins dbNow goNow req).1
  | .delete req => (handleDeletePoint db req).1
  | .vote val req => (handlePointVote db val req).db
  | .hideCheck id => maybeHidePoint db id

/-- The store after a sequence of operations. -/
def run (L : Lib) (db : DB) (ops : List Op) : DB := ops.foldl (step L) db

/-! ## Package verify

Go strings are sequences of runes here (the addresses reach the package
through `json.Unmarshal`, which yields valid UTF-8). -/

/-- Go `strings.Split(s, sep)` for a separator of one rune: the pieces of `s`
between the occurrences of `sep`, at least one piece. -/
def splitOn (sep : Char) : List Char → List (List Char)
  | [] => [[]]
  | c :: cs =>
    if c = sep then [] :: splitOn sep cs
    else
      match splitOn sep cs with
      | [] => [[c]]
      | p :: ps => (c :: p) :: ps

/-- Go `strings.Join(parts, sep)`. -/
def joinWith (sep : List Char) : List (List Char) → List Char
  | [] => []
  | [p] => p
  | p :: q :: rest => p ++ sep ++ joinWith sep (q :: rest)

/-- Go `unicode.ToLower`: `if r <= MaxASCII { if 'A' <= r && r <= 'Z' { r += 'a' - 'A' }; return r }`,
any other rune goes through the case tables of package unicode, the
parameter `tbl`. -/
def toLowerRune (tbl : Char → Char) (c : Char) : Char :=
  if c.toNat ≤ 127 then
    if 65 ≤ c.toNat ∧ c.toNat ≤ 90 then Char.ofNat (c.toNat + 32) else c
  else tbl c

/-- Go `strings.ToLower`: `unicode.ToLower` on every rune. -/
def toLower (tbl : Char → Char) (s : List Char) : List Char := s.map (toLowerRune tbl)

/-- Function `normalizeGmailLocalPart` of verify.go:
`strings.Replace(local, ".", "", -1)` then `strings.Split(local, "+")[0]`. -/
def normalizeGmailLocalPart (loc : List Char) : List Char :=
  let loc := loc.filter (fun c => decide (c ≠ '.'))
  (splitOn '+' loc).headD []

/-- Function `partsFromEmailAddress` of verify.go: the error, or the pair
(local, host). -/
def partsFromEmailAddress (tbl : Char → Char) (addr : List Char) :
    Except String (List Char × List Char) :=
  let addr := trimSpaceL addr
  let parts := splitOn '@' addr
  if parts.length < 2 then .error ("Invalid email address: " ++ String.mk addr)
  else
    let host := parts.getLastD []
    let localParts := parts.dropLast
    let loc := joinWith ['@'] localParts
    let loc := normalizeGmailLocalPart loc
    .ok (toLower tbl loc, toLower tbl host)

/-- What the proofs use of the case tables of package unicode: no rune
outside ASCII has `@`, `.` or `+` as its lower case. -/
def TableKeepsMarks (tbl : Char → Char) : Prop :=
  ∀ c : Char, 127 < c.toNat → tbl c ≠ '@' ∧ tbl c ≠ '.' ∧ tbl c ≠ '+'

/-- A case table for the examples: it maps U+00C9 to U+00E9 and fixes every
other rune. -/
def exTable (c : Char) : Char := if c = 'É' then 'é' else c

/-- The rows of `votes` stored for a (voter, point) pair. -/
def rowsOf (db : DB) (voter : String) (pointId : Int) : List VoteRow :=
  db.votes.filter (fun v => decide (v.voter_id = voter) && decide (v.point_id = pointId))

/-- Downvotes on one point by the listed voters in turn, each followed by its
hide check. -/
def downvoteAll (db : DB) (pointId : Int) (voters : List String) : DB :=
  voters.foldl (fun s v => voteAndCheck s (-1) (.value ⟨pointId, v⟩)) db

/-! ## Example inputs -/

/-- A library instance for the examples: it agrees with the Go and Postgres
functions on the texts the examples use (`url.Parse` finds host `twitter.com`
in `https://twitter.com/a`; `strconv.ParseFloat` returns 0 for the empty
text). -/
def exLib : Lib where
  urlHost := fun s => if s = "https://twitter.com/a" then some "twitter.com" else some ""
  fmtTime := fun _ => "2020-06-01T12:00:00-05:00"
  pointOut := fun p => if p = (2, 1) then "(2,1)".toList else "(0,0)".toList
  parseFloat := fun t => if t = ['1'] then 1 else if t = ['2'] then 2 else 0

/-- A visible point of user `u1` and a hidden point of user `u2`, no votes. -/
def exDB : DB :=
  { points := [{ id := 1, coordinates := (2, 1), body := "hello", icon := "x",
                 created_at := 0, created_by := "u1", hidden := false },
               { id := 2, coordinates := (2, 1), body := "bye", icon := "y",
                 created_at := 0, created_by := "u2", hidden := true }]
    votes := [] }

/-- The example store after user `u1` submits the address of a tweet as the
message of a point at longitude 2, latitude 1. -/
def exLinkDB : DB :=
  (handlePostPoint exLib { points := [], votes := [] } (some 7) 100 100
    (.value ⟨⟨1, 2⟩, "u1", "https://twitter.com/a", "x"⟩)).1

/-! ## Shared lemmas on the statements -/

theorem hidden_row_fixed (r : PointRow) (h : r.hidden = true) : { r with hidden := true } = r := by
  cases r
  simp_all

theorem hideOwned_keeps_hidden (db : DB) (id : Int) (by_ : String) (i : Nat) (p : PointRow)
    (hp : db.points[i]? = some p) (hh : p.hidden = true) :
    (hideOwned db id by_).points[i]? = some p := by
  unfold hideOwned
  simp only [List.getElem?_map, hp, Option.map_some']
  split
  · rw [hidden_row_fixed p hh]
  · rfl

theorem hidePoint_keeps_hidden (db : DB) (id : Int) (i : Nat) (p : PointRow)
    (hp : db.points[i]? = some p) (hh : p.hidden = true) :
    (hidePoint db id).points[i]? = some p := by
  unfold hidePoint
  simp only [List.getElem?_map, hp, Option.map_some']
  split
  · rw [hidden_row_fixed p hh]
  · rfl

theorem insertPoint_keeps_rows (db : DB) (newId now : Int) (x y : Rat) (body icon by_ : String)
    (i : Nat) (p : PointRow) (hp : db.points[i]? = some p) :
    (insertPoint db newId now x y body icon by_).points[i]? = some p := by
  unfold insertPoint
  have hlt : i < db.points.length := by
    rcases Nat.lt_or_ge i db.points.length with h | h
    · exact h
    · rw [List.getElem?_eq_none h] at hp
      cases hp
  simp only
  rw [List.getElem?_append_left hlt]
  exact hp

theorem hidePoint_votes (db : DB) (id : Int) : (hidePoint db id).votes = db.votes := rfl

theorem maybeHidePoint_cases (db : DB) (id : Int) :
    maybeHidePoint db id = db ∨ maybeHidePoint db id = hidePoint db id := by
  unfold maybeHidePoint
  split
  · exact Or.inl rfl
  · split
    · exact Or.inr rfl
    · exact Or.inl rfl

theorem maybeHidePoint_votes (db : DB) (id : Int) : (maybeHidePoint db id).votes = db.votes := by
  rcases maybeHidePoint_cases db id with h | h <;> rw [h]
  rfl

theorem handlePointVote_points (db : DB) (val : Int) (req : Decoded voteOpts) :
    (handlePointVote db val req).db.points = db.points := by
  unfold handlePointVote
  cases req with
  | failed => rfl
  | null => rfl
  | value opts =>
    simp only [insertVote]
    split <;> rename_i h
    · rfl
    · split at h
      · cases h
      · cases h
        rfl

theorem step_keeps_hidden (L : Lib) (db : DB) (op : Op) (i : Nat) (p : PointRow)
    (hp : db.points[i]? = some p) (hh : p.hidden = true) :
    (step L db op).points[i]? = some p := by
  cases op with
  | submit ins dbNow goNow req =>
    cases req with
    | failed => exact hp
    | null => exact hp
    | value pt =>
      cases ins with
      | none => exact hp
      | some newId =>
        simp only [step, handlePostPoint]
        exact insertPoint_keeps_rows db _ _ _ _ _ _ _ i p hp
  | delete req =>
    cases req with
    | failed => exact hp
    | null => exact hp
    | value opts => exact hideOwned_keeps_hidden db _ _ i p hp hh
  | vote val req =>
    simp only [step]
    rw [handlePointVote_points]
    exact hp
  | hideCheck id =>
    simp only [step]
    rcases maybeHidePoint_cases db id with h | h <;> rw [h]
    · exact hp
    · exact hidePoint_keeps_hidden db id i p hp hh

theorem run_keeps_hidden (L : Lib) (ops : List Op) : ∀ (db : DB) (i : Nat) (p : PointRow),
    db.points[i]? = some p → p.hidden = true → (run L db ops).points[i]? = some p := by
  induction ops with
  | nil => intro db i p hp _; exact hp
  | cons op rest ih =>
    intro db i p hp hh
    exact ih (step L db op) i p (step_keeps_hidden L db op i p hp hh) hh

/-! ## C1: hidden is monotonic -/

/-- C1. A point is a row of table `points`, identified by its position (rows
are never removed or reordered).  A row that is hidden is still the same
hidden row after any single operation (submit, owner delete, vote, hide check)
with any arguments, and therefore after any sequence of operations. -/
theorem hidden_is_monotonic (L : Lib) :
    (∀ (db : DB) (op : Op) (i : Nat) (p : PointRow),
        db.points[i]? = some p → p.hidden = true → (step L db op).points[i]? = some p) ∧
    (∀ (db : DB) (ops : List Op) (i : Nat) (p : PointRow),
        db.points[i]? = some p → p.hidden = true → (run L db ops).points[i]? = some p) :=
  ⟨fun db op i p hp hh => step_keeps_hidden L db op i p hp hh,
   fun db ops i p hp hh => run_keeps_hidden L ops db i p hp hh⟩

/-- Witness for C1: the hidden point 2 of the example store survives a delete
by its owner, an upvote and a hide check. -/
theorem hidden_is_monotonic_witness :
    (run exLib exDB [Op.delete (.value ⟨2, "u2"⟩), Op.vote 1 (.value ⟨2, "u9"⟩),
                      Op.hideCheck 2]).points[1]? =
      some { id := 2, coordinates := (2, 1), body := "bye", icon := "y", created_at := 0,
             created_by := "u2", hidden := true } :=
  (hidden_is_monotonic exLib).2 exDB _ 1 _ (by decide) (by decide)

/-! ## C2: one vote per voter and point -/

theorem votesFor_insert (db mid : DB) (v : VoteRow) (h : mid.votes = db.votes ++ [v]) (id : Int) :
    votesFor mid id = votesFor db id ++ (if v.point_id = id then [v.value] else []) := by
  unfold votesFor
  rw [h, List.filter_append, List.map_append]
  by_cases hv : v.point_id = id <;> simp [List.filter, hv]

theorem handlePointVote_fresh (db : DB) (val pid : Int) (voter : String)
    (h : hasVoted db voter pid = false) :
    handlePointVote db val (.value ⟨pid, voter⟩) =
      { db := { db with votes := db.votes ++ [⟨voter, pid, val⟩] }, response := .empty,
        spawned := some pid } := by
  simp [handlePointVote, insertVote, h]

theorem handlePointVote_voted (db : DB) (val pid : Int) (voter : String)
    (h : hasVoted db voter pid = true) :
    handlePointVote db val (.value ⟨pid, voter⟩) =
      { db := db, response := .empty, spawned := none } := by
  simp [handlePointVote, insertVote, h]

theorem rowsOf_nil_of_fresh (db : DB) (voter : String) (pid : Int)
    (h : hasVoted db voter pid = false) : rowsOf db voter pid = [] := by
  unfold rowsOf
  rw [List.filter_eq_nil_iff]
  intro v hv hc
  have : hasVoted db voter pid = true := by
    unfold hasVoted
    rw [List.any_eq_true]
    exact ⟨v, hv, hc⟩
  rw [h] at this
  cases this

theorem hasVoted_of_votes_eq (db db2 : DB) (h : db2.votes = db.votes) (voter : String) (pid : Int) :
    hasVoted db2 voter pid = hasVoted db voter pid := by
  unfold hasVoted
  rw [h]

theorem hasVoted_after_call (db mid : DB) (voter : String) (pid val : Int)
    (hmid : mid.votes = (handlePointVote db val (.value ⟨pid, voter⟩)).db.votes) :
    hasVoted mid voter pid = true := by
  cases hv : hasVoted db voter pid with
  | true =>
    rw [handlePointVote_voted db val pid voter hv] at hmid
    rw [hasVoted_of_votes_eq db mid hmid]
    exact hv
  | false =>
    rw [handlePointVote_fresh db val pid voter hv] at hmid
    unfold hasVoted
    rw [hmid, List.any_append]
    simp

/-- C2. With the uniqueness constraint on (voter_id, point_id) in force, take
two successive calls of the vote handler by one voter on one point, with any
values `v1`, `v2`.  The second call, whether or not a hide check has run in
between (any store `mid` with the votes the first call left), inserts no row,
starts no hide check and answers with an empty response.  When the voter had
no vote on the point before, the first call appends exactly the row
(voter, point, v1), leaves the points alone, answers with an empty response
and starts the hide check for the point; after both calls the pair has
exactly one row and the score of the point is the score before plus `v1`. -/
theorem vote_twice_counts_once (db : DB) (voter : String) (pid v1 v2 : Int) :
    (∀ mid : DB, mid.votes = (handlePointVote db v1 (.value ⟨pid, voter⟩)).db.votes →
      (handlePointVote mid v2 (.value ⟨pid, voter⟩)).db = mid ∧
      (handlePointVote mid v2 (.value ⟨pid, voter⟩)).response = .empty ∧
      (handlePointVote mid v2 (.value ⟨pid, voter⟩)).spawned = none) ∧
    (hasVoted db voter pid = false →
      (handlePointVote db v1 (.value ⟨pid, voter⟩)).db.votes = db.votes ++ [⟨voter, pid, v1⟩] ∧
      (handlePointVote db v1 (.value ⟨pid, voter⟩)).db.points = db.points ∧
      (handlePointVote db v1 (.value ⟨pid, voter⟩)).response = .empty ∧
      (handlePointVote db v1 (.value ⟨pid, voter⟩)).spawned = some pid ∧
      ∀ mid : DB, mid.votes = (handlePointVote db v1 (.value ⟨pid, voter⟩)).db.votes →
        (rowsOf (handlePointVote mid v2 (.value ⟨pid, voter⟩)).db voter pid).length = 1 ∧
        scoreOf (handlePointVote mid v2 (.value ⟨pid, voter⟩)).db pid = scoreOf db pid + v1) := by
  refine ⟨?_, ?_⟩
  · intro mid hmid
    rw [handlePointVote_voted mid v2 pid voter (hasVoted_after_call db mid voter pid v1 hmid)]
    exact ⟨rfl, rfl, rfl⟩
  · intro hfresh
    have hfirst := handlePointVote_fresh db v1 pid voter hfresh
    refine ⟨by rw [hfirst], by rw [hfirst], by rw [hfirst], by rw [hfirst], ?_⟩
    intro mid hmid
    rw [handlePointVote_voted mid v2 pid voter (hasVoted_after_call db mid voter pid v1 hmid)]
    rw [hfirst] at hmid
    simp only at hmid
    refine ⟨?_, ?_⟩
    · have h0 := rowsOf_nil_of_fresh db voter pid hfresh
      unfold rowsOf at h0 ⊢
      simp only
      rw [hmid, List.filter_append, h0]
      simp [List.filter]
    · unfold scoreOf
      rw [votesFor_insert db mid ⟨voter, pid, v1⟩ hmid pid]
      simp

/-- Witness for C2: voter `u9` downvotes and then upvotes point 1 of the
example store, on which `u9` had no vote. -/
theorem vote_twice_counts_once_witness :
    (handlePointVote exDB (-1) (.value ⟨1, "u9"⟩)).spawned = some 1 ∧
    (handlePointVote (handlePointVote exDB (-1) (.value ⟨1, "u9"⟩)).db 1
      (.value ⟨1, "u9"⟩)).spawned = none ∧
    scoreOf (handlePointVote (handlePointVote exDB (-1) (.value ⟨1, "u9"⟩)).db 1
      (.value ⟨1, "u9"⟩)).db 1 = scoreOf exDB 1 + (-1) :=
  have h := vote_twice_counts_once exDB "u9" 1 (-1) 1
  ⟨(h.2 (by decide)).2.2.2.1, (h.1 _ rfl).2.2, ((h.2 (by decide)).2.2.2.2 _ rfl).2⟩

/-! ## C4: owner-only soft delete -/

/-- C4. For every store, point id and requester, the delete handler answers
with an empty response and leaves the votes alone; row by row, a point is
replaced by its hidden version when its id is the requested one and its
created_by is the requester, and is left as it is otherwise.  When no stored
point has both that id and that creator (unknown id, or another owner), the
store after the call is the store before. -/
theorem delete_is_owner_only (db : DB) (id : Int) (requester : String) :
    (handleDeletePoint db (.value ⟨id, requester⟩)).2 = .empty ∧
    (handleDeletePoint db (.value ⟨id, requester⟩)).1.votes = db.votes ∧
    List.Forall₂
      (fun r r2 => (r.id = id ∧ r.created_by = requester → r2 = { r with hidden := true }) ∧
                   (¬ (r.id = id ∧ r.created_by = requester) → r2 = r))
      db.points (handleDeletePoint db (.value ⟨id, requester⟩)).1.points ∧
    ((∀ r ∈ db.points, ¬ (r.id = id ∧ r.created_by = requester)) →
      (handleDeletePoint db (.value ⟨id, requester⟩)).1 = db) := by
  refine ⟨rfl, rfl, ?_, ?_⟩
  · simp only [handleDeletePoint, hideOwned]
    rw [List.forall₂_map_right_iff]
    apply List.forall₂_same.mpr
    intro r _
    by_cases h : r.id = id ∧ r.created_by = requester
    · simp [h]
    · simp [h]
  · intro hno
    simp only [handleDeletePoint, hideOwned]
    cases db with
    | mk points votes =>
      simp only [DB.mk.injEq, and_true]
      conv_rhs => rw [← List.map_id points]
      apply List.map_congr_left
      intro r hr
      simp [hno r hr]

/-- Witness for C4: user `u2` asks to delete point 1, which belongs to `u1`;
the store is left as it was. -/
theorem delete_is_owner_only_witness :
    (handleDeletePoint exDB (.value ⟨1, "u2"⟩)).1 = exDB :=
  (delete_is_owner_only exDB 1 "u2").2.2.2 (by decide)

/-! ## C3: the score threshold -/

theorem hidePoint_hides (db : DB) (id : Int) :
    ∀ q ∈ (hidePoint db id).points, q.id = id → q.hidden = true := by
  intro q hq hid
  simp only [hidePoint, List.mem_map] at hq
  obtain ⟨r, _, hr⟩ := hq
  by_cases h : r.id = id
  · rw [if_pos h] at hr
    rw [← hr]
  · rw [if_neg h] at hr
    rw [← hr] at hid
    exact absurd hid h

theorem hidePoint_rows (db : DB) (id : Int) :
    List.Forall₂ (fun r r2 => r2 = if r.id = id then { r with hidden := true } else r)
      db.points (hidePoint db id).points := by
  simp only [hidePoint]
  rw [List.forall₂_map_right_iff]
  exact List.forall₂_same.mpr (fun _ _ => rfl)

theorem hidePoint_idem (db : DB) (id : Int) : hidePoint (hidePoint db id) id = hidePoint db id := by
  simp only [hidePoint, List.map_map]
  congr 1
  apply List.map_congr_left
  intro r _
  by_cases h : r.id = id <;> simp [h]

theorem maybeHidePoint_of_votes (db : DB) (id : Int) (h : votesFor db id ≠ []) :
    maybeHidePoint db id = if scoreOf db id ≤ -5 then hidePoint db id else db := by
  simp [maybeHidePoint, sumVotes, h]

theorem voteAndCheck_fresh (db : DB) (voter : String) (pid val : Int)
    (h : hasVoted db voter pid = false) :
    (voteAndCheck db val (.value ⟨pid, voter⟩)).votes = db.votes ++ [⟨voter, pid, val⟩] ∧
    (voteAndCheck db val (.value ⟨pid, voter⟩)).points =
      (if scoreOf db pid + val ≤ -5 then (hidePoint db pid).points else db.points) ∧
    scoreOf (voteAndCheck db val (.value ⟨pid, voter⟩)) pid = scoreOf db pid + val := by
  have hvf : votesFor { db with votes := db.votes ++ [⟨voter, pid, val⟩] } pid =
      votesFor db pid ++ [val] := by
    rw [votesFor_insert db _ ⟨voter, pid, val⟩ rfl pid]
    simp
  have hsc : scoreOf { db with votes := db.votes ++ [⟨voter, pid, val⟩] } pid =
      scoreOf db pid + val := by
    unfold scoreOf
    rw [hvf]
    simp
  have hne : votesFor { db with votes := db.votes ++ [⟨voter, pid, val⟩] } pid ≠ [] := by
    rw [hvf]
    simp
  have hrun : voteAndCheck db val (.value ⟨pid, voter⟩) =
      maybeHidePoint { db with votes := db.votes ++ [⟨voter, pid, val⟩] } pid := by
    simp [voteAndCheck, handlePointVote_fresh db val pid voter h]
  rw [hrun]
  refine ⟨by rw [maybeHidePoint_votes], ?_, ?_⟩
  · rw [maybeHidePoint_of_votes _ _ hne, hsc]
    split <;> rfl
  · unfold scoreOf votesFor
    rw [maybeHidePoint_votes]
    exact hsc

theorem hasVoted_after_other (db db2 : DB) (w voter : String) (pid val : Int)
    (hvotes : db2.votes = db.votes ++ [⟨voter, pid, val⟩]) (hne : w ≠ voter)
    (h : hasVoted db w pid = false) : hasVoted db2 w pid = false := by
  unfold hasVoted at h ⊢
  rw [hvotes, List.any_append, h]
  simp [Ne.symm hne]

/-- The effect of a run of downvotes on one point, each followed by its hide
check, cast by distinct voters who have not voted on the point before. -/
theorem downvotes_run (pid : Int) : ∀ (voters : List String) (db : DB),
    voters.Nodup → (∀ v ∈ voters, hasVoted db v pid = false) →
    (voters.foldl (fun s v => voteAndCheck s (-1) (.value ⟨pid, v⟩)) db).points =
      (if voters ≠ [] ∧ scoreOf db pid - (voters.length : Int) ≤ -5
        then (hidePoint db pid).points else db.points) ∧
    (voters.foldl (fun s v => voteAndCheck s (-1) (.value ⟨pid, v⟩)) db).votes =
      db.votes ++ voters.map (fun v => ⟨v, pid, -1⟩) := by
  intro voters
  induction voters with
  | nil => intro db _ _; simp
  | cons v vs ih =>
    intro db hnd hfresh
    have hv : hasVoted db v pid = false := hfresh v (List.mem_cons_self _ _)
    obtain ⟨h1v, h1p, h1s⟩ := voteAndCheck_fresh db v pid (-1) hv
    have hnd2 : vs.Nodup := (List.nodup_cons.mp hnd).2
    have hfresh2 : ∀ w ∈ vs, hasVoted (voteAndCheck db (-1) (.value ⟨pid, v⟩)) w pid = false := by
      intro w hw
      have hwv : w ≠ v := by
        intro e
        rw [e] at hw
        exact (List.nodup_cons.mp hnd).1 hw
      exact hasVoted_after_other db _ w v pid (-1) h1v hwv (hfresh w (List.mem_cons_of_mem _ hw))
    obtain ⟨ihp, ihv⟩ := ih (voteAndCheck db (-1) (.value ⟨pid, v⟩)) hnd2 hfresh2
    simp only [List.foldl_cons]
    refine ⟨?_, ?_⟩
    · rw [ihp, h1s]
      have hhide : (hidePoint (voteAndCheck db (-1) (.value ⟨pid, v⟩)) pid).points =
          (hidePoint db pid).points := by
        have e : (hidePoint (voteAndCheck db (-1) (.value ⟨pid, v⟩)) pid).points =
            (voteAndCheck db (-1) (.value ⟨pid, v⟩)).points.map
              (fun r => if r.id = pid then { r with hidden := true } else r) := rfl
        rw [e, h1p]
        split
        · have := congrArg DB.points (hidePoint_idem db pid)
          exact this
        · rfl
      rw [hhide, h1p]
      simp only [List.length_cons, Nat.cast_add, Nat.cast_one]
      by_cases hvs : vs = []
      · subst hvs
        simp
      · by_cases hc : scoreOf db pid + -1 - (vs.length : Int) ≤ -5
        · have hc2 : scoreOf db pid - ((vs.length : Int) + 1) ≤ -5 := by omega
          simp [hvs, hc, hc2]
        · have hc2 : ¬ scoreOf db pid - ((vs.length : Int) + 1) ≤ -5 := by omega
          have hc3 : ¬ scoreOf db pid + -1 ≤ -5 := by omega
          simp [hvs, hc, hc2, hc3]
    · rw [ihv, h1v]
      simp

theorem fresh_point_state (L : Lib) (db : DB) (newId dbNow goNow : Int) (pt : newPoint)
    (hnew : ∀ v ∈ db.votes, v.point_id ≠ newId) :
    scoreOf (handlePostPoint L db (some newId) dbNow goNow (.value pt)).1 newId = 0 ∧
    ∀ w : String, hasVoted (handlePostPoint L db (some newId) dbNow goNow (.value pt)).1 w newId = false := by
  have hvotes : (handlePostPoint L db (some newId) dbNow goNow (.value pt)).1.votes = db.votes := rfl
  refine ⟨?_, ?_⟩
  · unfold scoreOf votesFor
    rw [hvotes]
    have : db.votes.filter (fun v => decide (v.point_id = newId)) = [] := by
      rw [List.filter_eq_nil_iff]
      intro v hv
      simpa using hnew v hv
    rw [this]
    rfl
  · intro w
    unfold hasVoted
    rw [hvotes]
    rw [Bool.eq_false_iff]
    intro hc
    rw [List.any_eq_true] at hc
    obtain ⟨v, hv, hvc⟩ := hc
    simp only [Bool.and_eq_true, decide_eq_true_eq] at hvc
    exact hnew v hv hvc.2

/-- C3. (1) For every store and point id with at least one vote on that id,
the hide check leaves the votes alone and, row by row, replaces a point by its
hidden version exactly when the point has that id and the sum of the votes on
it is at most -5; above -5 the whole store is unchanged; and a visible point
with that id is hidden afterwards if and only if the sum is at most -5.
(2) A point just created by the submit handler (the insert succeeded) under
an id that has no votes,
then downvoted by distinct voters with each hide check run, is hidden after
five such downvotes and still visible after four. -/
theorem hide_at_minus_five (L : Lib) :
    (∀ (db : DB) (id : Int), votesFor db id ≠ [] →
      (maybeHidePoint db id).votes = db.votes ∧
      List.Forall₂
        (fun r r2 => r2 = if r.id = id ∧ scoreOf db id ≤ -5 then { r with hidden := true } else r)
        db.points (maybeHidePoint db id).points ∧
      (scoreOf db id > -5 → maybeHidePoint db id = db) ∧
      (∀ r ∈ db.points, r.id = id → r.hidden = false →
        ((∀ q ∈ (maybeHidePoint db id).points, q.id = id → q.hidden = true) ↔
          scoreOf db id ≤ -5))) ∧
    (∀ (db : DB) (newId dbNow goNow : Int) (pt : newPoint) (voters : List String),
      (∀ v ∈ db.votes, v.point_id ≠ newId) → voters.Nodup →
      (voters.length = 5 →
        (downvoteAll (handlePostPoint L db (some newId) dbNow goNow (.value pt)).1 newId
            voters).points[db.points.length]? =
          some { id := newId, coordinates := (pt.Coords.Longitude, pt.Coords.Latitude),
                 body := pt.Message, icon := pt.Icon, created_at := dbNow,
                 created_by := pt.CreatedBy, hidden := true } ∧
        ∀ q ∈ (downvoteAll (handlePostPoint L db (some newId) dbNow goNow (.value pt)).1 newId
            voters).points, q.id = newId → q.hidden = true) ∧
      (voters.length = 4 →
        (downvoteAll (handlePostPoint L db (some newId) dbNow goNow (.value pt)).1 newId
            voters).points[db.points.length]? =
          some { id := newId, coordinates := (pt.Coords.Longitude, pt.Coords.Latitude),
                 body := pt.Message, icon := pt.Icon, created_at := dbNow,
                 created_by := pt.CreatedBy, hidden := false })) := by
  refine ⟨?_, ?_⟩
  · intro db id hv
    have hm := maybeHidePoint_of_votes db id hv
    refine ⟨maybeHidePoint_votes db id, ?_, ?_, ?_⟩
    · rw [hm]
      by_cases hs : scoreOf db id ≤ -5
      · simp only [hs, if_true, and_true]
        exact hidePoint_rows db id
      · simp only [hs, if_false, and_false]
        exact List.forall₂_same.mpr (fun _ _ => rfl)
    · intro hs
      rw [hm, if_neg (by omega)]
    · intro r hr hid hvis
      constructor
      · intro hall
        by_contra hs
        rw [hm, if_neg hs] at hall
        have := hall r hr hid
        rw [hvis] at this
        cases this
      · intro hs
        rw [hm, if_pos hs]
        exact hidePoint_hides db id
  · intro db newId dbNow goNow pt voters hnew hnd
    obtain ⟨hsc, hfr⟩ := fresh_point_state L db newId dbNow goNow pt hnew
    obtain ⟨hp, _⟩ := downvotes_run newId voters
      (handlePostPoint L db (some newId) dbNow goNow (.value pt)).1 hnd (fun v _ => hfr v)
    have hcreated : (handlePostPoint L db (some newId) dbNow goNow (.value pt)).1.points =
        db.points ++ [{ id := newId, coordinates := (pt.Coords.Longitude, pt.Coords.Latitude),
                        body := pt.Message, icon := pt.Icon, created_at := dbNow,
                        created_by := pt.CreatedBy, hidden := false }] := rfl
    refine ⟨?_, ?_⟩
    · intro h5
      have hne : voters ≠ [] := by
        intro e
        rw [e] at h5
        cases h5
      have hpts : (downvoteAll (handlePostPoint L db (some newId) dbNow goNow (.value pt)).1 newId
          voters).points = (hidePoint (handlePostPoint L db (some newId) dbNow goNow (.value pt)).1
            newId).points := by
        unfold downvoteAll
        rw [hp, hsc, h5, if_pos ⟨hne, by decide⟩]
      rw [hpts]
      refine ⟨?_, hidePoint_hides _ newId⟩
      simp only [hidePoint, hcreated, List.map_append, List.map_cons, List.map_nil]
      rw [List.getElem?_append_right (by simp)]
      simp
    · intro h4
      have hpts : (downvoteAll (handlePostPoint L db (some newId) dbNow goNow (.value pt)).1 newId
          voters).points = (handlePostPoint L db (some newId) dbNow goNow (.value pt)).1.points := by
        unfold downvoteAll
        rw [hp, hsc, h4, if_neg (by intro h; exact absurd h.2 (by decide))]
      rw [hpts, hcreated]
      rw [List.getElem?_append_right (by simp)]
      simp

/-- Witness for C3: a point submitted into the example store under id 7 and
downvoted by five distinct voters ends up hidden. -/
theorem hide_at_minus_five_witness :
    (downvoteAll (handlePostPoint exLib exDB (some 7) 100 100
        (.value ⟨⟨1, 2⟩, "u1", "hello", "x"⟩)).1 7
        ["a", "b", "c", "d", "e"]).points[exDB.points.length]? =
      some { id := 7, coordinates := (2, 1), body := "hello", icon := "x", created_at := 100,
             created_by := "u1", hidden := true } :=
  ((hide_at_minus_five exLib).2 exDB 7 100 100 ⟨⟨1, 2⟩, "u1", "hello", "x"⟩
    ["a", "b", "c", "d", "e"] (by decide) (by decide)).1 (by decide) |>.1

/-! ## C5: the list filter -/

theorem prop_point_id (f : Int → String) (c : Rat × Rat) (id msg : String) (tm : Int)
    (icon : String) (cd : Bool) :
    (NewPointFromCoords f c id msg tm icon cd).prop "point_id" = some id := by
  simp [Element.prop, NewPointFromCoords]

theorem prop_icon (f : Int → String) (c : Rat × Rat) (id msg : String) (tm : Int)
    (icon : String) (cd : Bool) :
    (NewPointFromCoords f c id msg tm icon cd).prop "icon" = some icon := by
  simp [Element.prop, NewPointFromCoords, List.find?]

theorem prop_message (f : Int → String) (c : Rat × Rat) (id msg : String) (tm : Int)
    (icon : String) (cd : Bool) :
    (NewPointFromCoords f c id msg tm icon cd).prop "message" = some msg := by
  simp [Element.prop, NewPointFromCoords, List.find?]

/-- The elements built by the row loop, row by row. -/
theorem scanRows_ok (L : Lib) : ∀ (rows : List (PointRow × Bool)) (els : List Element),
    scanRows L rows = .ok els →
    List.Forall₂
      (fun row e => ∃ xy : Rat × Rat, e = NewPointFromCoords L.fmtTime xy (toString row.1.id)
        (toClickableLink L row.1.body) row.1.created_at row.1.icon row.2) rows els := by
  intro rows
  induction rows with
  | nil =>
    intro els h
    simp only [scanRows] at h
    cases h
    exact List.Forall₂.nil
  | cons row rest ih =>
    intro els h
    obtain ⟨r, cd⟩ := row
    simp only [scanRows] at h
    split at h
    · cases h
    · cases h
    · rename_i pt _
      split at h
      · cases h
      · rename_i els2 hrest
        cases h
        exact List.Forall₂.cons ⟨pt.Point, rfl⟩ (ih els2 hrest)

/-- The row loop runs to its end when every text slices. -/
theorem scanRows_total (L : Lib) : ∀ (rows : List (PointRow × Bool)),
    (∀ row ∈ rows, scanTexts (L.pointOut row.1.coordinates) ≠ none) →
    ∃ els, scanRows L rows = .ok els := by
  intro rows
  induction rows with
  | nil => intro _; exact ⟨[], rfl⟩
  | cons row rest ih =>
    intro h
    obtain ⟨r, cd⟩ := row
    obtain ⟨els, hels⟩ := ih (fun row hrow => h row (List.mem_cons_of_mem _ hrow))
    have hr := h (r, cd) (List.mem_cons_self _ _)
    simp only at hr
    cases hst : scanTexts (L.pointOut r.coordinates) with
    | none => exact absurd hst hr
    | some ab =>
      obtain ⟨a, b⟩ := ab
      refine ⟨NewPointFromCoords L.fmtTime (L.parseFloat a, L.parseFloat b) (toString r.id)
        (toClickableLink L r.body) r.created_at r.icon cd :: els, ?_⟩
      simp only [scanRows, PsqlPoint.Scan, hst, hels]

theorem queryPoints_row (db : DB) (now : Int) (x1 y1 x2 y2 : Rat) (by_ : String)
    (row : PointRow × Bool) (h : row ∈ queryPoints db now x1 y1 x2 y2 by_) :
    row.1 ∈ db.points ∧ listable now x1 y1 x2 y2 row.1 = true ∧
    row.2 = decide (row.1.created_by = by_) := by
  simp only [queryPoints, List.mem_map] at h
  obtain ⟨r, hr, rfl⟩ := h
  have hf := List.mem_of_mem_take hr
  rw [List.mem_filter] at hf
  exact ⟨hf.1, hf.2, rfl⟩

theorem queryPoints_length (db : DB) (now : Int) (x1 y1 x2 y2 : Rat) (by_ : String) :
    (queryPoints db now x1 y1 x2 y2 by_).length ≤ 500 := by
  simp only [queryPoints, List.length_map, List.length_take]
  exact Nat.min_le_left _ _

theorem handleGetPoints_json (L : Lib) (db : DB) (now : Int) (bnd : bounds) (els : List Element)
    (h : handleGetPoints L db now (.value bnd) = .json els) :
    scanRows L (queryPoints db now bnd.Ne.X bnd.Ne.Y bnd.Sw.X bnd.Sw.Y bnd.RequestedBy) =
      .ok els := by
  simp only [handleGetPoints] at h
  split at h
  · rename_i e he
    rw [he]
    subst h
    -- the early exits of the row loop never carry a list
    exfalso
    revert he
    generalize queryPoints db now bnd.Ne.X bnd.Ne.Y bnd.Sw.X bnd.Sw.Y bnd.RequestedBy = rows
    induction rows with
    | nil => intro he; simp [scanRows] at he
    | cons row rest ih =>
      intro he
      obtain ⟨r, cd⟩ := row
      simp only [scanRows] at he
      split at he
      · cases he
      · cases he
      · split at he
        · rename_i e2 he2
          cases he
          exact ih he2
        · cases he
  · rename_i els2 he
    cases h
    exact he

theorem forall2_right_mem {α β : Type} (R : α → β → Prop) : ∀ (l1 : List α) (l2 : List β),
    List.Forall₂ R l1 l2 → ∀ b ∈ l2, ∃ a ∈ l1, R a b := by
  intro l1 l2 h
  induction h with
  | nil => intro b hb; cases hb
  | cons hab _ ih =>
    intro b hb
    rcases List.mem_cons.mp hb with rfl | hb
    · exact ⟨_, List.mem_cons_self _ _, hab⟩
    · obtain ⟨a, ha, hR⟩ := ih b hb
      exact ⟨a, List.mem_cons_of_mem _ ha, hR⟩

/-- The elements of a list response, each with the stored row it was built
from. -/
theorem listed_rows (L : Lib) (db : DB) (now : Int) (bnd : bounds) (els : List Element)
    (h : handleGetPoints L db now (.value bnd) = .json els) :
    els.length ≤ 500 ∧
    ∀ e ∈ els, ∃ r ∈ db.points,
      listable now bnd.Ne.X bnd.Ne.Y bnd.Sw.X bnd.Sw.Y r = true ∧
      ∃ xy : Rat × Rat, e = NewPointFromCoords L.fmtTime xy (toString r.id)
        (toClickableLink L r.body) r.created_at r.icon (decide (r.created_by = bnd.RequestedBy)) := by
  have hs := handleGetPoints_json L db now bnd els h
  have hf := scanRows_ok L _ els hs
  refine ⟨?_, ?_⟩
  · rw [← hf.length_eq]
    exact queryPoints_length _ _ _ _ _ _ _
  · intro e he
    obtain ⟨row, hrow, xy, hxy⟩ := forall2_right_mem _ _ _ hf e he
    obtain ⟨h1, h2, h3⟩ := queryPoints_row _ _ _ _ _ _ _ row hrow
    refine ⟨row.1, h1, h2, xy, ?_⟩
    rw [hxy, h3]

/-- C5. For every store and bounds request, every element of the list
response is built from a stored point that is not hidden, was created less
than twelve hours before the query and lies in the box spanned by the two
corners, borders included; its can_delete flag is true exactly when the
creator of that point is requested_by; and the response has at most 500
elements.  The handler does answer with a list whenever the coordinate text
of every stored point can be sliced. -/
theorem list_is_filtered (L : Lib) (db : DB) (now : Int) (bnd : bounds) :
    (∀ els : List Element, handleGetPoints L db now (.value bnd) = .json els →
      els.length ≤ 500 ∧
      ∀ e ∈ els, ∃ r ∈ db.points,
        e.prop "point_id" = some (toString r.id) ∧
        e.prop "icon" = some r.icon ∧
        r.hidden = false ∧
        now - r.created_at < twelveHours ∧
        min bnd.Ne.Longitude bnd.Sw.Longitude ≤ r.coordinates.1 ∧
        r.coordinates.1 ≤ max bnd.Ne.Longitude bnd.Sw.Longitude ∧
        min bnd.Ne.Latitude bnd.Sw.Latitude ≤ r.coordinates.2 ∧
        r.coordinates.2 ≤ max bnd.Ne.Latitude bnd.Sw.Latitude ∧
        (e.CanDelete = true ↔ r.created_by = bnd.RequestedBy)) ∧
    ((∀ r ∈ db.points, scanTexts (L.pointOut r.coordinates) ≠ none) →
      ∃ els : List Element, handleGetPoints L db now (.value bnd) = .json els) := by
  refine ⟨?_, ?_⟩
  · intro els h
    obtain ⟨hlen, hall⟩ := listed_rows L db now bnd els h
    refine ⟨hlen, ?_⟩
    intro e he
    obtain ⟨r, hr, hl, xy, hxy⟩ := hall e he
    simp only [listable, boxContains, coord.X, coord.Y, Bool.and_eq_true, decide_eq_true_eq,
      beq_iff_eq] at hl
    obtain ⟨⟨htime, ⟨⟨hx1, hx2⟩, hy1⟩, hy2⟩, hhid⟩ := hl
    refine ⟨r, hr, ?_, ?_, hhid, by omega, hx1, hx2, hy1, hy2, ?_⟩
    · rw [hxy, prop_point_id]
    · rw [hxy, prop_icon]
    · rw [hxy]
      simp [NewPointFromCoords]
  · intro hscan
    obtain ⟨els, hels⟩ := scanRows_total L
      (queryPoints db now bnd.Ne.X bnd.Ne.Y bnd.Sw.X bnd.Sw.Y bnd.RequestedBy)
      (fun row hrow => hscan row.1 (queryPoints_row _ _ _ _ _ _ _ row hrow).1)
    exact ⟨els, by simp only [handleGetPoints, hels]⟩

/-- Witness for C5: user `u1` lists the example store; the one element of the
answer is built from the visible point 1, which `u1` may delete. -/
theorem list_is_filtered_witness :
    (∃ els : List Element, handleGetPoints exLib exDB 100 (.value ⟨"u1", ⟨3, 3⟩, ⟨0, 0⟩⟩) =
      .json els) ∧
    [NewPointFromCoords exLib.fmtTime (0, 1) "1" "hello" 0 "x" true].length ≤ 500 :=
  ⟨(list_is_filtered exLib exDB 100 ⟨"u1", ⟨3, 3⟩, ⟨0, 0⟩⟩).2 (by decide),
   ((list_is_filtered exLib exDB 100 ⟨"u1", ⟨3, 3⟩, ⟨0, 0⟩⟩).1 _ (by decide)).1⟩

/-! ## C6: what the submit handler rejects -/

/-- C6, as the code has it.  The submit handler has no validation of its own.
A body that cannot be read or decoded gets an empty response and a body that
is the JSON value null aborts the handler, both without touching the store.
A decoded request whose insert fails gets an empty response and leaves the
store as it was.  A decoded request whose insert succeeds (its coordinates
are numbers by type) is stored as one new row that carries the message
exactly as sent, whatever the message is, an empty or blank one included,
and is answered with one feature. -/
theorem submit_does_not_validate (L : Lib) (db : DB) (dbNow goNow : Int) :
    (∀ ins : Option Int, handlePostPoint L db ins dbNow goNow .failed = (db, .empty)) ∧
    (∀ ins : Option Int, handlePostPoint L db ins dbNow goNow .null = (db, .aborted)) ∧
    (∀ pt : newPoint, handlePostPoint L db none dbNow goNow (.value pt) = (db, .empty)) ∧
    ∀ (pt : newPoint) (newId : Int),
      (handlePostPoint L db (some newId) dbNow goNow (.value pt)).1.points =
        db.points ++ [{ id := newId, coordinates := (pt.Coords.Longitude, pt.Coords.Latitude),
                        body := pt.Message, icon := pt.Icon, created_at := dbNow,
                        created_by := pt.CreatedBy, hidden := false }] ∧
      (handlePostPoint L db (some newId) dbNow goNow (.value pt)).1.votes = db.votes ∧
      ∃ e : Element, (handlePostPoint L db (some newId) dbNow goNow (.value pt)).2 = .json [e] :=
  ⟨fun _ => rfl, fun _ => rfl, fun _ => rfl, fun _ _ => ⟨rfl, rfl, _, rfl⟩⟩

/-- Counterexample to C6 as stated: a request with an empty message and one
with a message of two spaces (both empty after trimming), whose inserts
succeed under id 7, are stored as new points and answered with a feature,
not rejected. -/
theorem submit_accepts_blank_message :
    trimSpace "" = "" ∧ trimSpace "  " = "" ∧
    (handlePostPoint exLib exDB (some 7) 100 100 (.value ⟨⟨1, 2⟩, "u1", "", "x"⟩)).1.points.map
      PointRow.body = ["hello", "bye", ""] ∧
    (handlePostPoint exLib exDB (some 7) 100 100 (.value ⟨⟨1, 2⟩, "u1", "  ", "x"⟩)).1.points.map
      PointRow.body = ["hello", "bye", "  "] ∧
    (handlePostPoint exLib exDB (some 7) 100 100 (.value ⟨⟨1, 2⟩, "u1", "", "x"⟩)).2 =
      .json [NewPointFromCoords exLib.fmtTime (2, 1) "7" "" 100 "x" true] := by
  decide

/-! ## C7: where the link rewriting happens -/

/-- C7, as the code has it.  Link rewriting happens at read time only.  The
submit handler stores the message of the request unchanged (in the new row,
when the insert succeeds), and every element
of a list response carries as its message `toClickableLink` of the body of
the stored point it is built from. -/
theorem link_rewrite_is_on_read (L : Lib) (db : DB) :
    (∀ (newId dbNow goNow : Int) (pt : newPoint),
      (handlePostPoint L db (some newId) dbNow goNow (.value pt)).1.points.map PointRow.body =
        db.points.map PointRow.body ++ [pt.Message]) ∧
    (∀ (now : Int) (bnd : bounds) (els : List Element),
      handleGetPoints L db now (.value bnd) = .json els →
      ∀ e ∈ els, ∃ r ∈ db.points,
        e.prop "point_id" = some (toString r.id) ∧
        e.prop "message" = some (toClickableLink L r.body)) := by
  refine ⟨?_, ?_⟩
  · intro newId dbNow goNow pt
    simp [handlePostPoint, insertPoint]
  · intro now bnd els h e he
    obtain ⟨r, hr, _, xy, hxy⟩ := (listed_rows L db now bnd els h).2 e he
    exact ⟨r, hr, by rw [hxy, prop_point_id], by rw [hxy, prop_message]⟩

/-- Witness for C7 as amended: the list response for the store that holds the
address of a tweet carries the rewritten message. -/
theorem link_rewrite_is_on_read_witness :
    ∃ r ∈ exLinkDB.points,
      (NewPointFromCoords exLib.fmtTime (0, 1) "7"
        "<a href=\"https://twitter.com/a\" target=\"_blank\">https://twitter.com/a</a>"
        100 "x" true).prop "point_id" = some (toString r.id) ∧
      (NewPointFromCoords exLib.fmtTime (0, 1) "7"
        "<a href=\"https://twitter.com/a\" target=\"_blank\">https://twitter.com/a</a>"
        100 "x" true).prop "message" = some (toClickableLink exLib r.body) :=
  (link_rewrite_is_on_read exLib exLinkDB).2 200 ⟨"u1", ⟨3, 3⟩, ⟨0, 0⟩⟩ _ (by decide) _
    (List.mem_singleton.mpr rfl)

/-- Counterexample to C7 as stated: for the message `https://twitter.com/a`
the stored body is the message itself and not its rewritten form, and the
list handler returns the rewritten form and not the stored body. -/
theorem link_rewrite_not_on_write :
    exLinkDB.points.map PointRow.body = ["https://twitter.com/a"] ∧
    exLinkDB.points.map PointRow.body ≠ [toClickableLink exLib "https://twitter.com/a"] ∧
    ∃ e : Element, handleGetPoints exLib exLinkDB 200 (.value ⟨"u1", ⟨3, 3⟩, ⟨0, 0⟩⟩) =
        .json [e] ∧
      e.prop "message" =
        some "<a href=\"https://twitter.com/a\" target=\"_blank\">https://twitter.com/a</a>" ∧
      e.prop "message" ≠ some "https://twitter.com/a" :=
  ⟨by decide, by decide,
    NewPointFromCoords exLib.fmtTime (0, 1) "7"
      "<a href=\"https://twitter.com/a\" target=\"_blank\">https://twitter.com/a</a>" 100 "x" true,
    by decide, by decide, by decide⟩

/-! ## C8: the submit response -/

/-- C8. For every decoded submit request whose insert succeeds the response
is a list of exactly one feature, the one `NewPointFromCoords` builds with can_delete true: its
type is Feature, its geometry has type Point and coordinates longitude first,
then latitude, and its properties hold the id generated by the store, the
icon and the message of the request.  The row the handler appends to the
points table has that id and is not hidden. -/
theorem submit_response (L : Lib) (db : DB) (newId dbNow goNow : Int) (pt : newPoint) :
    ∃ (e : Element) (row : PointRow),
      (handlePostPoint L db (some newId) dbNow goNow (.value pt)).2 = .json [e] ∧
      e = NewPointFromCoords L.fmtTime (pt.Coords.Longitude, pt.Coords.Latitude)
            (toString newId) pt.Message goNow pt.Icon true ∧
      e.CanDelete = true ∧ e.Typ = "Feature" ∧ e.Geometry.Typ = "Point" ∧
      e.Geometry.Coordinates = (pt.Coords.Longitude, pt.Coords.Latitude) ∧
      e.prop "point_id" = some (toString newId) ∧
      e.prop "icon" = some pt.Icon ∧
      e.prop "message" = some pt.Message ∧
      (handlePostPoint L db (some newId) dbNow goNow (.value pt)).1.points = db.points ++ [row] ∧
      row.id = newId ∧ row.hidden = false :=
  ⟨_, _, rfl, rfl, rfl, rfl, rfl, rfl, prop_point_id _ _ _ _ _ _ _, prop_icon _ _ _ _ _ _ _,
    prop_message _ _ _ _ _ _ _, rfl, rfl, rfl⟩

/-! ## C9: the texts `Scan` converts -/

theorem indexByte_first_comma (xs rest : List Char) (hx : ',' ∉ xs) :
    indexByte ('(' :: (xs ++ ',' :: rest)) ',' = (xs.length : Int) + 1 := by
  unfold indexByte
  have hmem : ',' ∈ '(' :: (xs ++ ',' :: rest) := by simp
  rw [if_pos hmem]
  have hne : ('(' : Char) ≠ ',' := by decide
  rw [List.indexOf_cons_ne _ hne, List.indexOf_append_of_not_mem hx, List.indexOf_cons_self]
  simp

/-- C9, as the code has it.  For the byte slice `(xs,ys)` with no comma in
`xs`, the text `Scan` converts for the second coordinate is `ys`, but the
text it converts for the first coordinate is `xs` without its last byte
(`b[1 : idx-1]` stops one byte before the byte before the comma); and when
`xs` is empty the slice expression panics instead of returning nil. -/
theorem scan_drops_last_byte {F : Type} [Zero F] (parseFloat : List Char → F) (pt : PsqlPoint F)
    (xs ys : List Char) (hx : ',' ∉ xs) :
    scanTexts ('(' :: (xs ++ ',' :: (ys ++ [')']))) =
      (if xs = [] then none else some (xs.dropLast, ys)) ∧
    PsqlPoint.Scan parseFloat pt (.bytes ('(' :: (xs ++ ',' :: (ys ++ [')'])))) =
      (if xs = [] then none
       else some ({ Point := (parseFloat xs.dropLast, parseFloat ys), Valid := false }, none)) := by
  have hidx := indexByte_first_comma xs (ys ++ [')']) hx
  have htexts : scanTexts ('(' :: (xs ++ ',' :: (ys ++ [')']))) =
      (if xs = [] then none else some (xs.dropLast, ys)) := by
    unfold scanTexts
    simp only [hidx]
    by_cases hnil : xs = []
    · subst hnil
      simp [goSlice]
    · have hpos : 1 ≤ xs.length := List.length_pos.mpr hnil
      have h1 : goSlice ('(' :: (xs ++ ',' :: (ys ++ [')']))) 1 ((xs.length : Int) + 1 - 1) =
          some xs.dropLast := by
        unfold goSlice
        have hc : (0 : Int) ≤ 1 ∧ (1 : Int) ≤ (xs.length : Int) + 1 - 1 ∧
            (xs.length : Int) + 1 - 1 ≤ (('(' :: (xs ++ ',' :: (ys ++ [')']))).length : Int) := by
          simp only [List.length_cons, List.length_append, Nat.cast_add, Nat.cast_one]
          omega
        rw [if_pos hc]
        have e1 : ((xs.length : Int) + 1 - 1 - 1).toNat = xs.length - 1 := by omega
        have e2 : (1 : Int).toNat = 1 := rfl
        rw [e1, e2]
        simp only [List.drop_succ_cons, List.drop_zero]
        rw [List.take_append_of_le_length (by omega), List.dropLast_eq_take]
      have h2 : goSlice ('(' :: (xs ++ ',' :: (ys ++ [')']))) ((xs.length : Int) + 1 + 1)
          ((('(' :: (xs ++ ',' :: (ys ++ [')']))).length : Int) - 1) = some ys := by
        unfold goSlice
        have hc : (0 : Int) ≤ (xs.length : Int) + 1 + 1 ∧
            (xs.length : Int) + 1 + 1 ≤ (('(' :: (xs ++ ',' :: (ys ++ [')']))).length : Int) - 1 ∧
            (('(' :: (xs ++ ',' :: (ys ++ [')']))).length : Int) - 1 ≤
              (('(' :: (xs ++ ',' :: (ys ++ [')']))).length : Int) := by
          simp only [List.length_cons, List.length_append, Nat.cast_add, Nat.cast_one,
            List.length_nil]
          omega
        rw [if_pos hc]
        have e1 : ((xs.length : Int) + 1 + 1).toNat = xs.length + 2 := by omega
        have e2 : ((('(' :: (xs ++ ',' :: (ys ++ [')']))).length : Int) - 1 -
            ((xs.length : Int) + 1 + 1)).toNat = ys.length := by
          simp only [List.length_cons, List.length_append, Nat.cast_add, Nat.cast_one,
            List.length_nil]
          omega
        rw [e1, e2]
        have e3 : List.drop (xs.length + 2) ('(' :: (xs ++ ',' :: (ys ++ [')']))) =
            ys ++ [')'] := by
          rw [show xs.length + 2 = (xs.length + 1) + 1 from rfl, List.drop_succ_cons,
            List.drop_append_eq_append_drop]
          simp
        rw [e3, List.take_left']
        rfl
      rw [h1, h2, if_neg hnil]
  refine ⟨htexts, ?_⟩
  simp only [PsqlPoint.Scan, htexts]
  by_cases hnil : xs = []
  · simp [hnil]
  · simp [hnil]

/-- Witness for C9: on the text of the comment in the source,
`(-93.2624,44.9343)`, the first text converted is `-93.262`, not
`-93.2624`. -/
theorem scan_drops_last_byte_witness :
    scanTexts "(-93.2624,44.9343)".toList = some ("-93.262".toList, "44.9343".toList) ∧
    PsqlPoint.Scan exLib.parseFloat { Point := (5, 5), Valid := true }
      (.bytes "(-93.2624,44.9343)".toList) =
      some ({ Point := (exLib.parseFloat "-93.262".toList, exLib.parseFloat "44.9343".toList),
              Valid := false }, none) :=
  scan_drops_last_byte exLib.parseFloat { Point := (5, 5), Valid := true }
    "-93.2624".toList "44.9343".toList (by decide)

/-! ## C10: address normalisation -/

theorem splitOn_ne_nil (sep : Char) : ∀ s : List Char, splitOn sep s ≠ [] := by
  intro s
  cases s with
  | nil => simp [splitOn]
  | cons c cs =>
    simp only [splitOn]
    split
    · simp
    · split <;> simp

theorem splitOn_no_sep (sep : Char) : ∀ s : List Char, sep ∉ s → splitOn sep s = [s] := by
  intro s
  induction s with
  | nil => intro _; rfl
  | cons c cs ih =>
    intro h
    have hc : c ≠ sep := fun e => h (e ▸ List.mem_cons_self _ _)
    have hcs : sep ∉ cs := fun e => h (List.mem_cons_of_mem _ e)
    simp only [splitOn, if_neg hc, ih hcs]

theorem splitOn_last (sep : Char) : ∀ (l h : List Char), sep ∉ h →
    splitOn sep (l ++ sep :: h) = splitOn sep l ++ [h] := by
  intro l h hh
  induction l with
  | nil => simp [splitOn, splitOn_no_sep sep h hh]
  | cons c cs ih =>
    rw [List.cons_append]
    by_cases hc : c = sep
    · simp only [splitOn, if_pos hc]
      rw [ih]
      rfl
    · simp only [splitOn, if_neg hc]
      rw [ih]
      cases hs : splitOn sep cs with
      | nil => exact absurd hs (splitOn_ne_nil sep cs)
      | cons p ps => rfl

theorem joinWith_splitOn (sep : Char) : ∀ s : List Char, joinWith [sep] (splitOn sep s) = s := by
  intro s
  induction s with
  | nil => rfl
  | cons c cs ih =>
    simp only [splitOn]
    cases hs : splitOn sep cs with
    | nil => exact absurd hs (splitOn_ne_nil sep cs)
    | cons p ps =>
      rw [hs] at ih
      by_cases hc : c = sep
      · simp only [if_pos hc, joinWith, ih, hc]
        simp
      · simp only [if_neg hc]
        cases ps with
        | nil =>
          simp only [joinWith] at ih ⊢
          rw [ih]
        | cons q r =>
          simp only [joinWith] at ih ⊢
          rw [← ih]
          simp

theorem splitOn_head (sep : Char) : ∀ s : List Char,
    (splitOn sep s).headD [] = s.takeWhile (fun c => decide (c ≠ sep)) := by
  intro s
  induction s with
  | nil => rfl
  | cons c cs ih =>
    simp only [splitOn]
    by_cases hc : c = sep
    · simp [hc, List.takeWhile]
    · simp only [if_neg hc]
      cases hs : splitOn sep cs with
      | nil => exact absurd hs (splitOn_ne_nil sep cs)
      | cons p ps =>
        rw [hs] at ih
        simp only [List.headD_cons] at ih ⊢
        simp [List.takeWhile, hc, ih]

theorem exists_last_sep (sep : Char) : ∀ t : List Char, sep ∈ t →
    ∃ l h, t = l ++ sep :: h ∧ sep ∉ h := by
  intro t
  induction t with
  | nil => intro h; cases h
  | cons c cs ih =>
    intro h
    by_cases hcs : sep ∈ cs
    · obtain ⟨l, h2, e, hn⟩ := ih hcs
      exact ⟨c :: l, h2, by rw [e]; rfl, hn⟩
    · rcases List.mem_cons.mp h with e | e
      · exact ⟨[], cs, by rw [e]; rfl, hcs⟩
      · exact absurd e hcs

/-- The result of `partsFromEmailAddress` on an address whose trimmed form is
`l@h` with no `@` in `h`. -/
theorem parts_of_last_at (tbl : Char → Char) (addr l h : List Char)
    (ht : trimSpaceL addr = l ++ '@' :: h) (hh : '@' ∉ h) :
    partsFromEmailAddress tbl addr =
      .ok (toLower tbl ((l.filter (fun c => decide (c ≠ '.'))).takeWhile
             (fun c => decide (c ≠ '+'))), toLower tbl h) := by
  have hlen : ¬ (splitOn '@' l ++ [h]).length < 2 := by
    have := List.length_pos.mpr (splitOn_ne_nil '@' l)
    simp only [List.length_append, List.length_singleton]
    omega
  simp only [partsFromEmailAddress, ht, splitOn_last '@' l h hh, if_neg hlen,
    List.getLastD_concat, List.dropLast_concat, joinWith_splitOn, normalizeGmailLocalPart,
    splitOn_head]

theorem parts_error_iff (tbl : Char → Char) (addr : List Char) :
    (∃ msg, partsFromEmailAddress tbl addr = .error msg) ↔ '@' ∉ trimSpaceL addr := by
  constructor
  · rintro ⟨msg, hmsg⟩ hmem
    obtain ⟨l, h, e, hn⟩ := exists_last_sep '@' _ hmem
    rw [parts_of_last_at tbl addr l h e hn] at hmsg
    cases hmsg
  · intro hno
    refine ⟨"Invalid email address: " ++ String.mk (trimSpaceL addr), ?_⟩
    simp [partsFromEmailAddress, splitOn_no_sep '@' _ hno]

theorem upper_shift_no_mark (n : Nat) (h1 : 65 ≤ n) (h2 : n ≤ 90) :
    Char.ofNat (n + 32) ≠ '@' ∧ Char.ofNat (n + 32) ≠ '.' ∧ Char.ofNat (n + 32) ≠ '+' := by
  interval_cases n <;> decide

/-- Lower-casing neither creates nor removes one of the marks `@`, `.`, `+`. -/
theorem toLowerRune_mark_iff (tbl : Char → Char) (H : TableKeepsMarks tbl) (c x : Char)
    (hx : x = '@' ∨ x = '.' ∨ x = '+') : toLowerRune tbl c = x ↔ c = x := by
  have hxn : x.toNat = 64 ∨ x.toNat = 46 ∨ x.toNat = 43 := by
    rcases hx with e | e | e <;> subst e
    · exact Or.inl rfl
    · exact Or.inr (Or.inl rfl)
    · exact Or.inr (Or.inr rfl)
  unfold toLowerRune
  by_cases hascii : c.toNat ≤ 127
  · rw [if_pos hascii]
    by_cases hup : 65 ≤ c.toNat ∧ c.toNat ≤ 90
    · rw [if_pos hup]
      obtain ⟨m1, m2, m3⟩ := upper_shift_no_mark c.toNat hup.1 hup.2
      constructor
      · intro e
        rcases hx with e2 | e2 | e2 <;> rw [e2] at e
        · exact absurd e m1
        · exact absurd e m2
        · exact absurd e m3
      · intro e
        rw [e] at hup
        omega
    · rw [if_neg hup]
  · rw [if_neg hascii]
    obtain ⟨m1, m2, m3⟩ := H c (by omega)
    constructor
    · intro e
      rcases hx with e2 | e2 | e2 <;> rw [e2] at e
      · exact absurd e m1
      · exact absurd e m2
      · exact absurd e m3
    · intro e
      rw [e] at hascii
      omega

/-- Removing the periods and cutting at the first `+` commutes with
lower-casing. -/
theorem normal_form_lower (tbl : Char → Char) (H : TableKeepsMarks tbl) : ∀ l : List Char,
    toLower tbl ((l.filter (fun c => decide (c ≠ '.'))).takeWhile (fun c => decide (c ≠ '+'))) =
      ((toLower tbl l).filter (fun c => decide (c ≠ '.'))).takeWhile
        (fun c => decide (c ≠ '+')) := by
  intro l
  induction l with
  | nil => rfl
  | cons c cs ih =>
    have hdot := toLowerRune_mark_iff tbl H c '.' (Or.inr (Or.inl rfl))
    have hplus := toLowerRune_mark_iff tbl H c '+' (Or.inr (Or.inr rfl))
    unfold toLower at ih ⊢
    by_cases h1 : c = '.'
    · have h1b : toLowerRune tbl c = '.' := hdot.mpr h1
      simp only [List.map_cons, List.filter, h1, h1b, ne_eq, not_true_eq_false, decide_False]
      simpa [h1] using ih
    · have h1b : ¬ toLowerRune tbl c = '.' := fun e => h1 (hdot.mp e)
      by_cases h2 : c = '+'
      · subst h2
        have h2b : toLowerRune tbl '+' = '+' := hplus.mpr rfl
        simp [List.filter, List.takeWhile, h2b]
      · have h2b : ¬ toLowerRune tbl c = '+' := fun e => h2 (hplus.mp e)
        simp only [List.map_cons, List.filter, List.takeWhile, ne_eq, h1, h1b, h2, h2b,
          not_false_eq_true, decide_True]
        rw [← ih]

theorem takeWhile_cut (p : Char → Bool) (x : Char) (hx : p x = false) :
    ∀ a b : List Char, (a ++ x :: b).takeWhile p = a.takeWhile p := by
  intro a b
  induction a with
  | nil => simp [List.takeWhile, hx]
  | cons c cs ih =>
    rw [List.cons_append, List.takeWhile_cons, List.takeWhile_cons, ih]

theorem case_split_transfer (tbl : Char → Char) (H : TableKeepsMarks tbl)
    (t1 t2 l1 h1 : List Char) (ht : t1 = l1 ++ '@' :: h1) (hh : '@' ∉ h1)
    (hcase : toLower tbl t1 = toLower tbl t2) :
    ∃ l2 h2, t2 = l2 ++ '@' :: h2 ∧ '@' ∉ h2 ∧
      toLower tbl l2 = toLower tbl l1 ∧ toLower tbl h2 = toLower tbl h1 := by
  have hat : ∀ c : Char, toLowerRune tbl c = '@' ↔ c = '@' :=
    fun c => toLowerRune_mark_iff tbl H c '@' (Or.inl rfl)
  unfold toLower at hcase ⊢
  rw [ht, List.map_append, List.map_cons] at hcase
  obtain ⟨l2, r2, e, hl, hr⟩ := List.map_eq_append_iff.mp hcase.symm
  obtain ⟨c2, h2, e2, hc2, hh2⟩ := List.map_eq_cons_iff.mp hr
  have hc2at : c2 = '@' := (hat c2).mp (hc2.trans ((hat '@').mpr rfl))
  refine ⟨l2, h2, by rw [e, e2, hc2at], ?_, hl, hh2⟩
  intro hmem
  have : toLowerRune tbl '@' ∈ List.map (toLowerRune tbl) h2 := List.mem_map_of_mem _ hmem
  rw [hh2, List.mem_map] at this
  obtain ⟨c, hc, hce⟩ := this
  rw [(hat '@').mpr rfl] at hce
  rw [(hat c).mp hce] at hc
  exact hh hc

theorem exTable_keeps_marks : TableKeepsMarks exTable := by
  intro c hc
  unfold exTable
  by_cases h : c = 'É'
  · rw [if_pos h]
    decide
  · rw [if_neg h]
    refine ⟨?_, ?_, ?_⟩ <;> intro e <;> rw [e] at hc <;> revert hc <;> decide

/-- C10.  With `t` the address after trimming white space:
(1) the function returns an error exactly when `t` has no `@`;
(2) otherwise `t` is `l@h` with no `@` in `h` (the text before and after the
last `@`), and for every such splitting the result is the pair of
lower-cased `l` with every period removed and everything from the first `+`
on dropped, and lower-cased `h`;
(3) the returned local part contains neither `.` nor `+`;
(4) two addresses whose trimmed forms are equal after lower-casing, or have
the same host text and local parts equal up to periods, or where the local
part of one is the local part of the other followed by `+` and a tag, give
the same result.
Parts (3) and the case part of (4) use that the case tables of Go map no rune
outside ASCII to `@`, `.` or `+`. -/
theorem address_normalisation (tbl : Char → Char) :
    (∀ addr : List Char,
      (∃ msg, partsFromEmailAddress tbl addr = .error msg) ↔ '@' ∉ trimSpaceL addr) ∧
    (∀ addr : List Char, '@' ∈ trimSpaceL addr →
      ∃ l h, trimSpaceL addr = l ++ '@' :: h ∧ '@' ∉ h) ∧
    (∀ addr l h : List Char, trimSpaceL addr = l ++ '@' :: h → '@' ∉ h →
      partsFromEmailAddress tbl addr =
        .ok (toLower tbl ((l.filter (fun c => decide (c ≠ '.'))).takeWhile
               (fun c => decide (c ≠ '+'))), toLower tbl h)) ∧
    (TableKeepsMarks tbl → ∀ addr loc host : List Char,
      partsFromEmailAddress tbl addr = .ok (loc, host) → '.' ∉ loc ∧ '+' ∉ loc) ∧
    (TableKeepsMarks tbl → ∀ a1 a2 : List Char, '@' ∈ trimSpaceL a1 →
      toLower tbl (trimSpaceL a1) = toLower tbl (trimSpaceL a2) →
      partsFromEmailAddress tbl a1 = partsFromEmailAddress tbl a2) ∧
    (∀ a1 a2 l1 l2 h : List Char,
      trimSpaceL a1 = l1 ++ '@' :: h → trimSpaceL a2 = l2 ++ '@' :: h → '@' ∉ h →
      l1.filter (fun c => decide (c ≠ '.')) = l2.filter (fun c => decide (c ≠ '.')) →
      partsFromEmailAddress tbl a1 = partsFromEmailAddress tbl a2) ∧
    (∀ a1 a2 l tag h : List Char,
      trimSpaceL a1 = l ++ '@' :: h → trimSpaceL a2 = (l ++ '+' :: tag) ++ '@' :: h → '@' ∉ h →
      partsFromEmailAddress tbl a1 = partsFromEmailAddress tbl a2) := by
  refine ⟨parts_error_iff tbl, fun addr h => exists_last_sep '@' _ h,
    parts_of_last_at tbl, ?_, ?_, ?_, ?_⟩
  · intro H addr loc host hok
    have hmem : '@' ∈ trimSpaceL addr := by
      by_contra hno
      obtain ⟨msg, hmsg⟩ := (parts_error_iff tbl addr).mpr hno
      rw [hmsg] at hok
      cases hok
    obtain ⟨l, h, e, hn⟩ := exists_last_sep '@' _ hmem
    rw [parts_of_last_at tbl addr l h e hn, normal_form_lower tbl H] at hok
    injection hok with hok
    injection hok with hloc _
    rw [← hloc]
    constructor
    · intro hm
      have := ((List.takeWhile_sublist _).subset hm)
      rw [List.mem_filter] at this
      simpa using this.2
    · intro hm
      simpa using List.mem_takeWhile_imp hm
  · intro H a1 a2 hmem hcase
    obtain ⟨l1, h1, e1, hn1⟩ := exists_last_sep '@' _ hmem
    obtain ⟨l2, h2, e2, hn2, hl, hh⟩ := case_split_transfer tbl H _ _ l1 h1 e1 hn1 hcase
    rw [parts_of_last_at tbl a1 l1 h1 e1 hn1, parts_of_last_at tbl a2 l2 h2 e2 hn2,
      normal_form_lower tbl H, normal_form_lower tbl H, hl, hh]
  · intro a1 a2 l1 l2 h e1 e2 hn hdots
    rw [parts_of_last_at tbl a1 l1 h e1 hn, parts_of_last_at tbl a2 l2 h e2 hn, hdots]
  · intro a1 a2 l tag h e1 e2 hn
    rw [parts_of_last_at tbl a1 l h e1 hn, parts_of_last_at tbl a2 (l ++ '+' :: tag) h e2 hn]
    have : ((l ++ '+' :: tag).filter (fun c => decide (c ≠ '.'))).takeWhile
        (fun c => decide (c ≠ '+')) =
        (l.filter (fun c => decide (c ≠ '.'))).takeWhile (fun c => decide (c ≠ '+')) := by
      rw [List.filter_append]
      have hp : List.filter (fun c => decide (c ≠ '.')) ('+' :: tag) =
          '+' :: List.filter (fun c => decide (c ≠ '.')) tag := by
        rw [List.filter_cons_of_pos (by decide)]
      rw [hp]
      exact takeWhile_cut _ '+' (by decide) _ _
    rw [this]

/-- Witness for C10: an address with spaces around it, capitals, a period and
a tag is normalised to `john` at `example.com`, and two spellings of one
address that differ in case give the same result. -/
theorem address_normalisation_witness :
    partsFromEmailAddress exTable "  Jo.Hn+tag@Example.COM ".toList =
      .ok ("john".toList, "example.com".toList) ∧
    partsFromEmailAddress exTable "JOHN@x.org".toList =
      partsFromEmailAddress exTable "john@X.ORG".toList ∧
    ('.' ∉ "john".toList ∧ '+' ∉ "john".toList) :=
  ⟨(address_normalisation exTable).2.2.1 _ "Jo.Hn+tag".toList "Example.COM".toList
      (by decide) (by decide),
   (address_normalisation exTable).2.2.2.2.1 exTable_keeps_marks _ _ (by decide) (by decide),
   (address_normalisation exTable).2.2.2.1 exTable_keeps_marks "  Jo.Hn+tag@Example.COM ".toList
      _ "example.com".toList rfl⟩

end FreeUsMap
